import Mathlib

/-!
Verification development for the torch-nansy repository.

The Yingram extractor (`src/nansy/yingram.py`) is embedded with exact
arithmetic: tensors of float32 samples become lists of rationals, the
MIDI-scale conversions (which use `log2` and `2 ** x`) become real-valued
functions, and the IEEE failure modes of the interpolation step (index
errors of tensor advanced indexing, NaN from 0/0) become an explicit
error type.  The pairing utility (`src/utils/dataset.py`) is embedded
with the NumPy generator abstracted as a seed-and-call-indexed
permutation supplier.
-/

namespace TorchNansy

/-! ## Configuration (`Yingram.__init__`)

The constructor only stores its five arguments; it performs no
validation of any kind. -/

structure Yingram where
  strides : ℕ
  windows : ℕ
  lmin : ℕ
  lmax : ℕ
  sr : ℕ
  deriving DecidableEq, Repr

/-- Embeds `Yingram.__init__`: the fields are stored as given and nothing
else happens (in particular no check of the configuration invariant). -/
def mkYingram (strides windows lmin lmax sr : ℕ) : Yingram :=
  { strides := strides, windows := windows, lmin := lmin, lmax := lmax, sr := sr }

/-- Configuration invariant from the specification, section 3:
`0 < lagMin < lagMax ≤ windowSize`, `strides > 0`, `windowSize > 0`. -/
def configValid (c : Yingram) : Prop :=
  0 < c.strides ∧ 0 < c.windows ∧ 0 < c.lmin ∧ c.lmin < c.lmax ∧ c.lmax ≤ c.windows

instance (c : Yingram) : Decidable (configValid c) := by
  unfold configValid; infer_instance

/-! ## Framing (`yingram.py` line 50)

`F.pad(audio, [0, w]).unfold(-1, w, strides)`: right-pad the waveform
with `windows` zeros, then slice windows of length `windows` every
`strides` samples.  `Tensor.unfold` yields `(len - size) / step + 1`
slices. -/

/-- Embeds `F.pad(audio, [0, w])`: right padding with `w` zeros. -/
def padRight (audio : List ℚ) (w : ℕ) : List ℚ :=
  audio ++ List.replicate w 0

/-- Embeds `Tensor.unfold(-1, size, step)` on a 1-d tensor: all full
slices of length `size` taken every `step` positions. -/
def unfold (xs : List ℚ) (size step : ℕ) : List (List ℚ) :=
  (List.range ((xs.length - size) / step + 1)).map
    (fun i => (xs.drop (i * step)).take size)

/-- Embeds line 50 of `yingram.py` for one waveform: the list of frames. -/
def framesOf (c : Yingram) (audio : List ℚ) : List (List ℚ) :=
  unfold (padRight audio c.windows) c.windows c.strides

/-! ## FFT autocorrelation (`yingram.py` lines 52-54)

`torch.fft.irfft(torch.fft.rfft(x).abs().square())` is, for an
EVEN-length real input `x` of length `W`, the circular autocorrelation
`corr[tau] = sum_j x[j] * x[(j + tau) mod W]` (Wiener-Khinchin for the
discrete Fourier transform, exact-arithmetic semantics).  For odd `W`
torch's `irfft` with default length returns `W - 1` samples of a
different (period `W - 1`) inverse transform; that length is modelled
by `irfftLen` below, the resulting broadcast abort by `diffChecked`
and `forwardChecked`, and every theorem about the values of this
stage restricts to even windows. -/

/-- Exact-arithmetic value of `irfft(|rfft(x)|^2)[tau]` for frames of
even length: the circular autocorrelation of the frame at lag `tau`.
Faithful to the code only for even `x.length` (see the section
comment). -/
def corrCirc (x : List ℚ) (tau : ℕ) : ℚ :=
  ∑ j in Finset.range x.length, x.getD j 0 * x.getD ((j + tau) % x.length) 0

/-! ## Cumulative energy (`yingram.py` line 56)

`F.pad(frames.square().cumsum(dim=-1), [1, 0])`: cumulative sums of the
squared samples with a leading zero, so entry `k` is the sum of the
first `k` squared samples. -/

/-- Embeds line 56 for one frame: `cumsum0 x` has length `x.length + 1`
and entry `k` equal to the sum of the first `k` squares. -/
def cumsum0 (x : List ℚ) : List ℚ :=
  (x.map (fun v => v * v)).scanl (· + ·) 0

/-! ## Difference function (`yingram.py` lines 58-64)

`diff = flip(cumsum[..., w - lmax : w]) - 2 * corr[..., :lmax]
      + cumsum[..., w, None] - cumsum[..., :lmax]`. -/

/-- Embeds lines 58-64 for one frame: the elementwise values of the
code's difference function of length `lmax`, for an even window whose
broadcast is well-formed.  The slice `cumsum[w - lmax : w]` keeps
entries `w - lmax, ..., w - 1` of the padded cumulative sum.  When
`lmax` exceeds the `irfft` output length the real expression raises a
broadcast `RuntimeError` instead of producing values; that abort is
modelled by `diffChecked` below. -/
def diffOf (c : Yingram) (x : List ℚ) : List ℚ :=
  (List.range c.lmax).map (fun tau =>
    (((cumsum0 x).drop (c.windows - c.lmax)).take c.lmax).reverse.getD tau 0
      - 2 * corrCirc x tau
      + (cumsum0 x).getD c.windows 0 - (cumsum0 x).getD tau 0)

/-- Direct sum of squared differences between the frame and its
lag-shifted copy: `sum over j of (x[j] - x[j + tau])^2`, the quantity
the comment on lines 40-45 of `yingram.py` derives. -/
def diffDirect (x : List ℚ) (tau : ℕ) : ℚ :=
  ∑ j in Finset.range (x.length - tau), (x.getD j 0 - x.getD (j + tau) 0) ^ 2

/-! ## Cumulative mean-normalized difference (`yingram.py` lines 66-71)

`cumdiff = diff[..., 1:] / (diff[..., 1:].cumsum(dim=-1) + 1e-7)`,
then `cumdiff = cumdiff * arange(1, lmax)`, then a left pad with the
constant `1.0`. -/

/-- Epsilon guard `1e-7` of line 66. -/
def epsY : ℚ := 1 / 10 ^ 7

/-- Embeds lines 66-71 for one frame's difference vector `d`:
drop entry 0, divide elementwise by the running cumulative sum plus
`epsY`, multiply elementwise by the lags `1, ..., lmax - 1`, and
prepend the conventional value `1`. -/
def cmndOf (d : List ℚ) : List ℚ :=
  1 :: List.zipWith (fun x t => x * t)
    (List.zipWith (fun x s => x / (s + epsY))
      (d.drop 1) (((d.drop 1).scanl (· + ·) 0).drop 1))
    ((List.range' 1 (d.drop 1).length).map (fun n : ℕ => (n : ℚ)))

/-! ## MIDI-scale grid (`yingram.py` lines 72-79)

`m2l(m) = sr / (440 * 2 ** ((m - 69) / 12))` and
`l2m(l) = 12 * log2(sr / (440 * l)) + 69` are embedded with exact real
arithmetic in place of float arithmetic.  `mmin` is `ceil` of `l2m(lmax)`
and `mmax` is python's `int(...)` of `l2m(lmin)`, which truncates toward
zero. -/

/-- Embeds the local `l2m` of line 74 over the reals. -/
noncomputable def l2m (c : Yingram) (l : ℚ) : ℝ :=
  12 * Real.logb 2 ((c.sr : ℝ) / (440 * (l : ℝ))) + 69

/-- Embeds the local `m2l` of line 73 over the reals, at an integer
MIDI index. -/
noncomputable def m2l (c : Yingram) (m : ℤ) : ℝ :=
  (c.sr : ℝ) / (440 * (2 : ℝ) ^ (((m : ℝ) - 69) / 12))

/-- Embeds python's `int(...)` on a real value: truncation toward zero. -/
noncomputable def intTrunc (x : ℝ) : ℤ :=
  if 0 ≤ x then ⌊x⌋ else ⌈x⌉

/-- Embeds `mmin = int(np.ceil(l2m(lmax)))` of line 76. -/
noncomputable def mminOf (c : Yingram) : ℤ :=
  ⌈l2m c (c.lmax : ℚ)⌉

/-- Embeds `mmax = int(l2m(lmin))` of line 76. -/
noncomputable def mmaxOf (c : Yingram) : ℤ :=
  intTrunc (l2m c (c.lmin : ℚ))

/-- Embeds `torch.arange(mmin, mmax + 1)` of line 78: the integer MIDI
grid. -/
noncomputable def gridOf (c : Yingram) : List ℤ :=
  (List.range (mmaxOf c + 1 - mminOf c).toNat).map (fun i : ℕ => mminOf c + (i : ℤ))

/-! ## Interpolation (`yingram.py` lines 79-83)

The returned expression is
`(cumdiff[..., lceil] - cumdiff[..., lfloor]) * (lags - lfloor)
   / (lceil - lfloor) + cumdiff[..., lfloor]`.
Two IEEE failure modes of this tensor expression are made explicit:
advanced indexing raises when an index falls outside `[-len, len)`
(negative indices wrap), and when `lceil == lfloor` the quotient is the
float `0/0`, a NaN (the numerator is exactly zero in that case because
both of its factors are). -/

/-- Failure modes of the interpolation step: an out-of-range tensor
index, or a NaN produced by `0/0`. -/
inductive YErr where
  | oob : YErr
  | nan : YErr
  deriving DecidableEq, Repr

/-- Embeds tensor advanced indexing `xs[i]` with python semantics:
indices in `[0, len)` read directly, indices in `[-len, 0)` wrap, and
anything else raises. -/
def tIndex (xs : List ℚ) (i : ℤ) : Except YErr ℚ :=
  if 0 ≤ i ∧ i < (xs.length : ℤ) then .ok (xs.getD i.toNat 0)
  else if -(xs.length : ℤ) ≤ i ∧ i < 0 then .ok (xs.getD (i + xs.length).toNat 0)
  else .error .oob

/-- Embeds lines 79-83 at a single grid point: `lceil`/`lfloor` from the
fractional lag `L`, the two reads of the CMND vector, and the
interpolation formula; `lceil = lfloor` yields the IEEE NaN `0/0`. -/
noncomputable def yinAt (cmnd : List ℚ) (L : ℝ) : Except YErr ℝ :=
  match tIndex cmnd ⌈L⌉, tIndex cmnd ⌊L⌋ with
  | .ok vc, .ok vf =>
      if ⌈L⌉ = ⌊L⌋ then .error .nan
      else .ok (((vc : ℝ) - (vf : ℝ)) * (L - (⌊L⌋ : ℝ)) / ((⌈L⌉ : ℝ) - (⌊L⌋ : ℝ))
        + (vf : ℝ))
  | _, _ => .error .oob

/-- Elementwise semantics of `Yingram.forward` for one waveform: for
every frame and every MIDI grid point, the interpolated cumulative
mean-normalized difference (or the per-entry failure).  This is the
value map of the returned tensor expression only; torch's whole-call
aborts (a broadcast `RuntimeError` in the difference stage, or an
`IndexError` as soon as any grid point's index is out of range) are
modelled by `forwardChecked` below. -/
noncomputable def forward (c : Yingram) (audio : List ℚ) :
    List (List (Except YErr ℝ)) :=
  (framesOf c audio).map (fun fr =>
    (gridOf c).map (fun m => yinAt (cmndOf (diffOf c fr)) (m2l c m)))

/-! ## Whole-call semantics of `Yingram.forward`

A real call of `Yingram.forward` can abort instead of returning:

* `torch.fft.irfft` with default length returns `2 * (W / 2)` samples
  (`W` for even window size, `W - 1` for odd).  When `lagMax` exceeds
  that, the slice `corr[..., :lagMax]` is shorter than the other
  operands of the difference expression and broadcasting raises a
  `RuntimeError` (lines 58-64).
* Tensor advanced indexing raises an `IndexError` for the whole call as
  soon as any grid point's `lceil` or `lfloor` falls outside
  `[-lagMax, lagMax)` (lines 81-83).

When neither abort fires, the call returns one tensor whose entries
are those of the elementwise maps above; a NaN entry (`0/0` at an
integer lag) does not abort the call, so returned entries are modelled
as `Option ℝ` with `none` for NaN. -/

/-- Length of `torch.fft.irfft(torch.fft.rfft(x), ...)` with default
output length, for an input of length `w`: `rfft` yields `w / 2 + 1`
bins and `irfft` defaults to `2 * (bins - 1)` samples. -/
def irfftLen (w : ℕ) : ℕ := 2 * (w / 2)

/-- Whole-call failures of `Yingram.forward`. -/
inductive TorchErr where
  | runtimeShape : TorchErr
  | indexError : TorchErr
  deriving DecidableEq, Repr

/-- The difference expression of lines 58-64 broadcasts without error
exactly when the autocorrelation slice `corr[..., :lagMax]` has the
full `lagMax` entries, i.e. `lagMax ≤ irfftLen windows` (for the
window sizes `≥ 2` of valid configurations no size-one broadcast can
occur). -/
def diffBroadcastOk (c : Yingram) : Prop := c.lmax ≤ irfftLen c.windows

instance (c : Yingram) : Decidable (diffBroadcastOk c) := by
  unfold diffBroadcastOk; infer_instance

/-- Embeds the difference stage with its abort: the broadcast
`RuntimeError` when the `irfft` output is too short, otherwise the
elementwise values. -/
def diffChecked (c : Yingram) (x : List ℚ) : Except TorchErr (List ℚ) :=
  if diffBroadcastOk c then .ok (diffOf c x) else .error .runtimeShape

/-- A tensor index is accepted by torch when it lies in
`[-len, len)`. -/
def idxOk (len : ℕ) (i : ℤ) : Prop := -(len : ℤ) ≤ i ∧ i < (len : ℤ)

/-- The whole-call index check of lines 81-83: every grid point's
`lceil` and `lfloor` must be a valid index into the CMND vector of
length `lagMax`, else the call raises `IndexError`. -/
noncomputable def gridIdxOk (c : Yingram) : Prop :=
  ∀ m ∈ gridOf c, idxOk c.lmax ⌈m2l c m⌉ ∧ idxOk c.lmax ⌊m2l c m⌋

/-- Value of a valid (possibly negative, wrapping) tensor index. -/
def tGet (xs : List ℚ) (i : ℤ) : ℚ :=
  if 0 ≤ i then xs.getD i.toNat 0 else xs.getD (i + xs.length).toNat 0

/-- Entry of the returned tensor at one grid point, once the index
check has passed: `none` is the NaN `0/0` of an integer lag, otherwise
the interpolated value. -/
noncomputable def yinVal (cmnd : List ℚ) (L : ℝ) : Option ℝ :=
  if ⌈L⌉ = ⌊L⌋ then none
  else some (((tGet cmnd ⌈L⌉ : ℝ) - (tGet cmnd ⌊L⌋ : ℝ)) * (L - (⌊L⌋ : ℝ))
    / ((⌈L⌉ : ℝ) - (⌊L⌋ : ℝ)) + (tGet cmnd ⌊L⌋ : ℝ))

/-- Rows of the returned tensor for one waveform (frames × grid). -/
noncomputable def forwardRows (c : Yingram) (audio : List ℚ) :
    List (List (Option ℝ)) :=
  (framesOf c audio).map (fun fr =>
    (gridOf c).map (fun m => yinVal (cmndOf (diffOf c fr)) (m2l c m)))

open Classical in
/-- Embeds a whole call of `Yingram.forward` on one waveform: the
broadcast check of the difference stage, then the index check of the
interpolation, then the returned entries.  Entry values are the
even-window `irfft` semantics; for an odd window that passes the
broadcast check the real entries differ (the `irfft` period is
`windows - 1`), but the abort behaviour and all shapes coincide, and
every value-level theorem below assumes an even window. -/
noncomputable def forwardChecked (c : Yingram) (audio : List ℚ) :
    Except TorchErr (List (List (Option ℝ))) :=
  if diffBroadcastOk c then
    if gridIdxOk c then .ok (forwardRows c audio)
    else .error .indexError
  else .error .runtimeShape

open Classical in
/-- Embeds a whole call of `Yingram.forward` on a batch: both aborts
hit the batched tensors, so they fail the entire call. -/
noncomputable def forwardCheckedB (c : Yingram) (batch : List (List ℚ)) :
    Except TorchErr (List (List (List (Option ℝ)))) :=
  if diffBroadcastOk c then
    if gridIdxOk c then .ok (batch.map (forwardRows c))
    else .error .indexError
  else .error .runtimeShape

/-! ## Paired dataset (`src/utils/dataset.py`)

The speaker grouping `self.groups` (a python dict, iterated in
insertion order) is a list of `(speaker id, record list)` entries;
records are identified by naturals.  `np.random.default_rng(seed)` is
abstracted as a function `perm` giving, for a seed and the index of the
`rng.permutation(n)` call made on that generator, a permutation of
`range n`; `random_pairing` makes exactly one such call per group, in
order. -/

/-- Embeds `indices.reshape(-1, 2)` followed by row iteration: the list
of consecutive index pairs (a trailing odd element would be dropped,
which never happens in `random_pairing`). -/
def chunk2 : List ℕ → List (ℕ × ℕ)
  | a :: b :: rest => (a, b) :: chunk2 rest
  | _ => []

/-- Embeds lines 49-50 of `dataset.py`: when the group size is odd, the
first element of the permutation is appended once more. -/
def oddFix (idx : List ℕ) : List ℕ :=
  if idx.length % 2 = 1 then idx ++ [idx.getD 0 0] else idx

/-- Embeds lines 52-54 of `dataset.py` for one speaker group: the
triples `(sid, paths[i], paths[j])` for the consecutive pairs `(i, j)`
of the (odd-fixed) permutation. -/
def groupPairs (sid : ℕ) (paths : List ℕ) (idx : List ℕ) : List (ℕ × ℕ × ℕ) :=
  (chunk2 (oddFix idx)).map (fun ij => (sid, paths.getD ij.1 0, paths.getD ij.2 0))

/-- Embeds `PairedDataset.random_pairing(seed)`: one permutation call
per group (call index = group position), odd-size fix, pairing, and
concatenation over the groups in order. -/
def randomPairing (perm : ℕ → ℕ → ℕ → List ℕ) (seed : ℕ)
    (groups : List (ℕ × List ℕ)) : List (ℕ × ℕ × ℕ) :=
  groups.enum.flatMap (fun kg => groupPairs kg.2.1 kg.2.2 (perm seed kg.1 kg.2.2.length))

/-- State of a `PairedDataset`: the speaker grouping and the current
pairing. -/
structure PDS where
  groups : List (ℕ × List ℕ)
  pairs : List (ℕ × ℕ × ℕ)
  deriving DecidableEq, Repr

/-- Embeds `PairedDataset.__init__` after grouping: the default pairing
is installed by a `random_pairing` call. -/
def mkPDS (perm : ℕ → ℕ → ℕ → List ℕ) (seed : ℕ) (groups : List (ℕ × List ℕ)) : PDS :=
  ⟨groups, randomPairing perm seed groups⟩

/-- Embeds a `random_pairing` call on an existing dataset: the groups
are kept and `self.pairs` is overwritten. -/
def rePair (perm : ℕ → ℕ → ℕ → List ℕ) (seed : ℕ) (p : PDS) : PDS :=
  ⟨p.groups, randomPairing perm seed p.groups⟩

/-- Embeds `PairedDataset.split(size)`: the retained dataset keeps the
first `size` speaker groups, the residual gets the rest, and both are
re-paired. -/
def splitPDS (perm : ℕ → ℕ → ℕ → List ℕ) (seed : ℕ) (p : PDS) (size : ℕ) :
    PDS × PDS :=
  (⟨p.groups.take size, randomPairing perm seed (p.groups.take size)⟩,
   ⟨p.groups.drop size, randomPairing perm seed (p.groups.drop size)⟩)

/-- Invariant of `PairedDataset`: every pair names a speaker of the
grouping and two records of that speaker's group. -/
def pairInvariant (p : PDS) : Prop :=
  ∀ t ∈ p.pairs, ∃ paths, (t.1, paths) ∈ p.groups ∧ t.2.1 ∈ paths ∧ t.2.2 ∈ paths

/-- Multiset of record slots used by a list of pairs: each triple
contributes its two record components. -/
def componentsOf (ps : List (ℕ × ℕ × ℕ)) : List ℕ :=
  ps.flatMap (fun t => [t.2.1, t.2.2])

/-! ## Concrete test configurations -/

/-- Valid configuration with `sr = 440`: the MIDI grid runs from 57 to
69 and the lag of MIDI index 57 is exactly `2 = lmax`. -/
def cfg440b : Yingram := mkYingram 1 2 1 2 440

/-- Valid configuration with `sr = 440` and `lmax = 33`: MIDI index 69
has the exactly-integer lag 1 and MIDI index 57 the exactly-integer
lag 2, both strictly inside `[0, lmax)`. -/
def cfg33 : Yingram := mkYingram 34 34 1 33 440

/-- Invalid configuration (`lmin = lmax`): the constructor stores it
without complaint and the first call returns an empty-grid output. -/
def cfg7 : Yingram := mkYingram 4 4 3 3 440

/-! ## List toolkit -/

lemma getD_map_range {α : Type} (f : ℕ → α) (d : α) {t n : ℕ} (h : t < n) :
    ((List.range n).map f).getD t d = f t := by
  rw [List.getD_eq_getElem _ _ (by simpa using h)]
  simp

lemma getD_zipWith (f : ℚ → ℚ → ℚ) (xs ys : List ℚ) (t : ℕ)
    (hx : t < xs.length) (hy : t < ys.length) :
    (List.zipWith f xs ys).getD t 0 = f (xs.getD t 0) (ys.getD t 0) := by
  rw [List.getD_eq_getElem _ _ (by rw [List.length_zipWith]; exact lt_min hx hy),
    List.getD_eq_getElem _ _ hx, List.getD_eq_getElem _ _ hy, List.getElem_zipWith]

lemma getD_drop (xs : List ℚ) (k t : ℕ) (h : k + t < xs.length) :
    (xs.drop k).getD t 0 = xs.getD (k + t) 0 := by
  rw [List.getD_eq_getElem _ _ (by rw [List.length_drop]; omega),
    List.getD_eq_getElem _ _ h, List.getElem_drop]

lemma scanl_add_getD : ∀ (xs : List ℚ) (a : ℚ) (k : ℕ), k ≤ xs.length →
    (xs.scanl (· + ·) a).getD k 0 = a + (xs.take k).sum
  | xs, a, 0, _ => by cases xs <;> simp [List.scanl]
  | [], _, _ + 1, h => by simp at h
  | x :: xs, a, k + 1, h => by
    rw [List.scanl_cons, List.singleton_append, List.getD_cons_succ,
      scanl_add_getD xs (a + x) k (by rw [List.length_cons] at h; omega),
      List.take_succ_cons, List.sum_cons]
    ring

lemma sum_take_eq : ∀ (xs : List ℚ) (k : ℕ),
    (xs.take k).sum = ∑ i in Finset.range k, xs.getD i 0
  | _, 0 => by simp
  | [], _ + 1 => by simp
  | x :: xs, k + 1 => by
    rw [Finset.sum_range_succ', List.take_succ_cons, List.sum_cons,
      sum_take_eq xs k]
    simp [add_comm]

lemma sum_Icc_getD (d : List ℚ) (n : ℕ) :
    ∑ i in Finset.Icc 1 n, d.getD i 0 = ∑ i in Finset.range n, d.getD (i + 1) 0 := by
  rw [← Nat.Ico_succ_right, Finset.sum_Ico_eq_sum_range]
  simp [add_comm]

/-! ## CMND closed form (`yingram.py` lines 66-71) -/

lemma cmndOf_getD_zero (d : List ℚ) : (cmndOf d).getD 0 0 = 1 := rfl

lemma cmndOf_getD (d : List ℚ) (t : ℕ) (h : t + 1 < d.length) :
    (cmndOf d).getD (t + 1) 0 =
      d.getD (t + 1) 0 / ((∑ i in Finset.Icc 1 (t + 1), d.getD i 0) + epsY)
        * ((t + 1 : ℕ) : ℚ) := by
  have hn : t < (d.drop 1).length := by rw [List.length_drop]; omega
  have hs : t < (((d.drop 1).scanl (· + ·) 0).drop 1).length := by
    rw [List.length_drop, List.length_scanl, List.length_drop]; omega
  have hr : t < ((List.range' 1 (d.drop 1).length).map (fun n : ℕ => (n : ℚ))).length := by
    rw [List.length_map, List.length_range']; exact hn
  rw [cmndOf, List.getD_cons_succ,
    getD_zipWith _ _ _ t (by rw [List.length_zipWith]; exact lt_min hn hs) hr,
    getD_zipWith _ _ _ t hn hs]
  have h1 : (d.drop 1).getD t 0 = d.getD (t + 1) 0 := by
    rw [getD_drop d 1 t (by omega), show 1 + t = t + 1 from by omega]
  have h2 : (((d.drop 1).scanl (· + ·) 0).drop 1).getD t 0 =
      ∑ i in Finset.Icc 1 (t + 1), d.getD i 0 := by
    rw [getD_drop _ 1 t (by rw [List.length_scanl, List.length_drop]; omega),
      show 1 + t = t + 1 from by omega,
      scanl_add_getD _ _ _ (by rw [List.length_drop]; omega),
      sum_take_eq, sum_Icc_getD, zero_add]
    refine Finset.sum_congr rfl (fun i hi => ?_)
    rw [getD_drop d 1 i (by rw [Finset.mem_range] at hi; omega),
      show 1 + i = i + 1 from by omega]
  have h3 : ((List.range' 1 (d.drop 1).length).map (fun n : ℕ => (n : ℚ))).getD t 0 =
      ((t + 1 : ℕ) : ℚ) := by
    rw [List.getD_eq_getElem _ _ hr, List.getElem_map, List.getElem_range']
    push_cast
    ring
  rw [h1, h2, h3]

/-! ## Claim theorems: Yingram difference function and CMND -/

/-- C1: the difference function of `Yingram.forward` (lines 52-64,
computed through the FFT power-spectrum shortcut and cumulative sums)
is claimed to equal the direct sum of squared differences
`sum over j of (x[j] - x[j+tau])^2` under exact arithmetic.  It does
not: on the valid configuration `strides=4, windows=4, lmin=1, lmax=2`
and the audio `[1, 1, 1, 1]`, whose first frame is `[1, 1, 1, 1]`, the
code's difference function at lag 1 is `-3` while the direct sum is
`0` (the `irfft` of the squared spectrum is the circular, not linear,
autocorrelation, and the flipped cumulative-sum slice
`cumsum[w - lmax : w]` reads `c[w - 1 - tau]` instead of `c[w - tau]`),
contradicting the derivation in the comment on lines 40-45. -/
theorem c1_fft_shortcut_vs_direct_sum :
    configValid (mkYingram 4 4 1 2 16000) ∧
    framesOf (mkYingram 4 4 1 2 16000) [1, 1, 1, 1] = [[1, 1, 1, 1], [0, 0, 0, 0]] ∧
    (diffOf (mkYingram 4 4 1 2 16000) [1, 1, 1, 1]).getD 1 0 = -3 ∧
    diffDirect [1, 1, 1, 1] 1 = 0 := by
  refine ⟨by decide, ?_, ?_, ?_⟩
  · simp [framesOf, mkYingram, unfold, padRight, List.range_succ]
  · simp [diffOf, mkYingram, corrCirc, cumsum0, Finset.sum_range_succ]
    norm_num
  · simp [diffDirect, Finset.sum_range_succ]

lemma cmndOf_formula (d : List ℚ) (tau : ℕ) (h1 : 1 ≤ tau) (h2 : tau < d.length) :
    (cmndOf d).getD 0 0 = 1 ∧
    (cmndOf d).getD tau 0 =
      (tau : ℚ) * d.getD tau 0 / ((∑ i in Finset.Icc 1 tau, d.getD i 0) + epsY) := by
  refine ⟨cmndOf_getD_zero d, ?_⟩
  obtain ⟨t, rfl⟩ : ∃ t, tau = t + 1 := ⟨tau - 1, by omega⟩
  rw [cmndOf_getD d t h2]
  ring

/-- C4: for every frame, the CMND vector built by `Yingram.forward`
(lines 66-71) from the frame's difference function has value exactly 1
at index 0, and for `1 ≤ tau < lagMax` its value is
`tau * diff[tau] / (sum of diff[1..tau] + 1e-7)`: the division uses the
running cumulative sum of the difference function plus the epsilon
guard and is followed by multiplication with the lag. -/
theorem c4_cmnd_formula (c : Yingram) (fr : List ℚ) (tau : ℕ) (h1 : 1 ≤ tau)
    (h2 : tau < (diffOf c fr).length) :
    (cmndOf (diffOf c fr)).getD 0 0 = 1 ∧
    (cmndOf (diffOf c fr)).getD tau 0 =
      (tau : ℚ) * (diffOf c fr).getD tau 0 /
        ((∑ i in Finset.Icc 1 tau, (diffOf c fr).getD i 0) + epsY) :=
  cmndOf_formula (diffOf c fr) tau h1 h2

/-- Witness for C4 at the configuration of the C1 test, the frame
`[1, 1, 1, 1]` and lag 1. -/
theorem c4_cmnd_formula_witness :
    (cmndOf (diffOf (mkYingram 4 4 1 2 16000) [1, 1, 1, 1])).getD 0 0 = 1 ∧
    (cmndOf (diffOf (mkYingram 4 4 1 2 16000) [1, 1, 1, 1])).getD 1 0 =
      ((1 : ℕ) : ℚ) * (diffOf (mkYingram 4 4 1 2 16000) [1, 1, 1, 1]).getD 1 0 /
        ((∑ i in Finset.Icc 1 1,
            (diffOf (mkYingram 4 4 1 2 16000) [1, 1, 1, 1]).getD i 0) + epsY) :=
  c4_cmnd_formula (mkYingram 4 4 1 2 16000) [1, 1, 1, 1] 1 (by decide)
    (by rw [diffOf, List.length_map, List.length_range]; decide)

/-- C5 counterexample: the number of frames is not `ceil(T / strides)`.
With the valid configuration `strides=2, windows=4, lmin=1, lmax=2` and
a waveform of length `T = 4`, the framing of line 50 yields 3 frames,
while `ceil(4 / 2) = 2`. -/
theorem c5_frame_count_counterexample :
    configValid (mkYingram 2 4 1 2 16000) ∧
    (framesOf (mkYingram 2 4 1 2 16000) [1, 1, 1, 1]).length = 3 ∧
    (4 + 2 - 1) / 2 = 2 := by
  refine ⟨by decide, ?_, by decide⟩
  simp [framesOf, mkYingram, unfold, padRight]

/-! ## Pairing lemmas -/

lemma chunk2_length : ∀ xs : List ℕ, (chunk2 xs).length = xs.length / 2
  | [] => rfl
  | [_] => by simp [chunk2]
  | _ :: _ :: rest => by
    simp only [chunk2, List.length_cons, chunk2_length rest]
    omega

lemma chunk2_flatMap (f : ℕ → ℕ) : ∀ xs : List ℕ, xs.length % 2 = 0 →
    (chunk2 xs).flatMap (fun ij => [f ij.1, f ij.2]) = xs.map f
  | [], _ => rfl
  | [_], h => by simp at h
  | a :: b :: rest, h => by
    rw [chunk2, List.flatMap_cons,
      chunk2_flatMap f rest (by rw [List.length_cons, List.length_cons] at h; omega)]
    rfl

lemma chunk2_mem : ∀ (xs : List ℕ) (ij : ℕ × ℕ), ij ∈ chunk2 xs → ij.1 ∈ xs ∧ ij.2 ∈ xs
  | [], ij, h => by simp [chunk2] at h
  | [a], ij, h => by simp [chunk2] at h
  | a :: b :: rest, ij, h => by
    rw [chunk2, List.mem_cons] at h
    rcases h with h | h
    · subst h; simp
    · have := chunk2_mem rest ij h
      exact ⟨List.mem_cons_of_mem _ (List.mem_cons_of_mem _ this.1),
        List.mem_cons_of_mem _ (List.mem_cons_of_mem _ this.2)⟩

lemma oddFix_length_even (idx : List ℕ) : (oddFix idx).length % 2 = 0 := by
  unfold oddFix
  by_cases h : idx.length % 2 = 1 <;> simp [h] <;> omega

lemma oddFix_length (idx : List ℕ) :
    (oddFix idx).length = if idx.length % 2 = 1 then idx.length + 1 else idx.length := by
  unfold oddFix
  by_cases h : idx.length % 2 = 1 <;> simp [h]

lemma oddFix_mem {idx : List ℕ} {x : ℕ} (h : x ∈ oddFix idx) : x ∈ idx := by
  unfold oddFix at h
  by_cases hl : idx.length % 2 = 1
  · rw [if_pos hl, List.mem_append] at h
    rcases h with h | h
    · exact h
    · rw [List.mem_singleton] at h
      subst h
      cases idx with
      | nil => simp at hl
      | cons a t => exact List.mem_cons_self a t
  · rwa [if_neg hl] at h

lemma range_map_getD : ∀ paths : List ℕ,
    (List.range paths.length).map (fun i => paths.getD i 0) = paths
  | [] => rfl
  | p :: ps => by
    rw [List.length_cons, List.range_succ_eq_map, List.map_cons, List.map_map]
    have he : ((fun i => (p :: ps).getD i 0) ∘ Nat.succ) = fun i => ps.getD i 0 := by
      funext i
      simp [Nat.succ_eq_add_one, List.getD_cons_succ]
    rw [List.getD_cons_zero, he, range_map_getD ps]

lemma componentsOf_groupPairs (sid : ℕ) (paths idx : List ℕ) :
    componentsOf (groupPairs sid paths idx) =
      (chunk2 (oddFix idx)).flatMap
        (fun ij => [paths.getD ij.1 0, paths.getD ij.2 0]) := by
  rw [componentsOf, groupPairs, List.flatMap_map]

lemma componentsOf_groupPairs_map (sid : ℕ) (paths idx : List ℕ) :
    componentsOf (groupPairs sid paths idx) =
      (oddFix idx).map (fun i => paths.getD i 0) := by
  rw [componentsOf_groupPairs]
  exact chunk2_flatMap (fun i => paths.getD i 0) _ (oddFix_length_even idx)

/-! ## Claim theorems: pairing -/

/-- C8: `PairedDataset.random_pairing` covers every record of every
speaker group at least once.  For a group at position `k` with records
`paths` and permutation `idx` (of length `n = paths.length`), the group
contributes `(n + 1) / 2` pairs (natural division: `n / 2` for even
`n`).  For even `n` the multiset of records used by the pairs is
exactly `paths` (each record exactly once); for odd `n` it is `paths`
with the record selected by the first element of the permutation
duplicated (appended, not dropped).  Consequently each record of the
group occurs in some pair of `random_pairing` with that speaker id. -/
theorem c8_random_pairing_coverage (perm : ℕ → ℕ → ℕ → List ℕ)
    (hperm : ∀ s k n, (perm s k n).Perm (List.range n))
    (seed : ℕ) (groups : List (ℕ × List ℕ)) (k sid : ℕ) (paths : List ℕ)
    (hk : (k, (sid, paths)) ∈ groups.enum) :
    (groupPairs sid paths (perm seed k paths.length)).length = (paths.length + 1) / 2 ∧
    (paths.length % 2 = 0 →
      (componentsOf (groupPairs sid paths (perm seed k paths.length))).Perm paths) ∧
    (paths.length % 2 = 1 →
      (componentsOf (groupPairs sid paths (perm seed k paths.length))).Perm
        (paths.getD ((perm seed k paths.length).getD 0 0) 0 :: paths)) ∧
    ∀ p ∈ paths, ∃ t ∈ randomPairing perm seed groups,
      t.1 = sid ∧ (t.2.1 = p ∨ t.2.2 = p) := by
  set idx := perm seed k paths.length with hidx
  have hlen : idx.length = paths.length := (hperm seed k paths.length).length_eq.trans
    (List.length_range _)
  have hmapped : (idx.map (fun i => paths.getD i 0)).Perm paths := by
    have := (hperm seed k paths.length).map (fun i => paths.getD i 0)
    rw [← hidx, range_map_getD paths] at this
    exact this
  have heven : paths.length % 2 = 0 →
      (componentsOf (groupPairs sid paths idx)).Perm paths := by
    intro hev
    rw [componentsOf_groupPairs_map, oddFix, if_neg (by rw [hlen]; omega)]
    exact hmapped
  have hodd : paths.length % 2 = 1 →
      (componentsOf (groupPairs sid paths idx)).Perm
        (paths.getD (idx.getD 0 0) 0 :: paths) := by
    intro hov
    rw [componentsOf_groupPairs_map, oddFix, if_pos (by rw [hlen]; omega),
      List.map_append, List.map_singleton]
    exact (List.perm_append_singleton _ _).trans (hmapped.cons _)
  refine ⟨?_, heven, hodd, ?_⟩
  · rw [groupPairs, List.length_map, chunk2_length, oddFix_length, hlen]
    rcases Nat.mod_two_eq_zero_or_one paths.length with hpar | hpar
    · rw [if_neg (by omega)]
      omega
    · rw [if_pos hpar]
  · intro p hp
    have hp2 : p ∈ componentsOf (groupPairs sid paths idx) := by
      by_cases hpar : paths.length % 2 = 1
      · exact (hodd hpar).mem_iff.mpr (List.mem_cons_of_mem _ hp)
      · exact (heven (by omega)).mem_iff.mpr hp
    rw [componentsOf, List.mem_flatMap] at hp2
    obtain ⟨t, ht, hpt⟩ := hp2
    refine ⟨t, List.mem_flatMap.mpr ⟨(k, (sid, paths)), hk, ht⟩, ?_, ?_⟩
    · obtain ⟨ij, _, rfl⟩ := List.mem_map.mp ht
      rfl
    · rw [List.mem_cons, List.mem_singleton] at hpt
      rcases hpt with h | h
      · exact Or.inl h.symm
      · exact Or.inr h.symm

/-- Witness for C8 on the single odd-size group `7 ↦ [10, 20, 30]`,
with the identity permutation supplier. -/
theorem c8_random_pairing_coverage_witness :
    (0, (7, [10, 20, 30])) ∈ ([(7, [10, 20, 30])] : List (ℕ × List ℕ)).enum ∧
    ((groupPairs 7 [10, 20, 30]
        ((fun _ _ n => List.range n) 0 0 ([10, 20, 30] : List ℕ).length)).length =
      (([10, 20, 30] : List ℕ).length + 1) / 2 ∧
    (([10, 20, 30] : List ℕ).length % 2 = 0 →
      (componentsOf (groupPairs 7 [10, 20, 30]
        ((fun _ _ n => List.range n) 0 0 ([10, 20, 30] : List ℕ).length))).Perm
        [10, 20, 30]) ∧
    (([10, 20, 30] : List ℕ).length % 2 = 1 →
      (componentsOf (groupPairs 7 [10, 20, 30]
        ((fun _ _ n => List.range n) 0 0 ([10, 20, 30] : List ℕ).length))).Perm
        (([10, 20, 30] : List ℕ).getD
          (((fun _ _ n => List.range n) 0 0 ([10, 20, 30] : List ℕ).length).getD 0 0) 0
          :: [10, 20, 30])) ∧
    ∀ p ∈ ([10, 20, 30] : List ℕ),
      ∃ t ∈ randomPairing (fun _ _ n => List.range n) 0 [(7, [10, 20, 30])],
        t.1 = 7 ∧ (t.2.1 = p ∨ t.2.2 = p)) :=
  ⟨by decide,
    c8_random_pairing_coverage (fun _ _ n => List.range n)
      (fun _ _ _ => List.Perm.refl _) 0 [(7, [10, 20, 30])] 0 7 [10, 20, 30]
      (by decide)⟩

/-- C9: the pairing produced by `random_pairing` is a deterministic
function of the speaker grouping and the seed: the generator is freshly
constructed from the seed at each call, so re-pairing two dataset
states with the same groups and the same seed yields the identical pair
list regardless of their previous pairings. -/
theorem c9_random_pairing_deterministic (perm : ℕ → ℕ → ℕ → List ℕ) (seed : ℕ)
    (groups : List (ℕ × List ℕ)) (pairs1 pairs2 : List (ℕ × ℕ × ℕ)) :
    (rePair perm seed ⟨groups, pairs1⟩).pairs =
      (rePair perm seed ⟨groups, pairs2⟩).pairs := rfl

/-- Core of C10: every triple produced by `random_pairing` names a
speaker of the given grouping and two records of that speaker's
group. -/
lemma randomPairing_invariant (perm : ℕ → ℕ → ℕ → List ℕ)
    (hperm : ∀ s k n, (perm s k n).Perm (List.range n)) (seed : ℕ)
    (groups : List (ℕ × List ℕ)) :
    ∀ t ∈ randomPairing perm seed groups,
      ∃ paths, (t.1, paths) ∈ groups ∧ t.2.1 ∈ paths ∧ t.2.2 ∈ paths := by
  intro t ht
  rw [randomPairing, List.mem_flatMap] at ht
  obtain ⟨kg, hkg, ht⟩ := ht
  obtain ⟨ij, hij, rfl⟩ := List.mem_map.mp ht
  have hmem := chunk2_mem _ ij hij
  have h1 : ij.1 ∈ perm seed kg.1 kg.2.2.length := oddFix_mem hmem.1
  have h2 : ij.2 ∈ perm seed kg.1 kg.2.2.length := oddFix_mem hmem.2
  have hi1 : ij.1 < kg.2.2.length := by
    have := (hperm seed kg.1 kg.2.2.length).mem_iff.mp h1
    rwa [List.mem_range] at this
  have hi2 : ij.2 < kg.2.2.length := by
    have := (hperm seed kg.1 kg.2.2.length).mem_iff.mp h2
    rwa [List.mem_range] at this
  refine ⟨kg.2.2, ?_, ?_, ?_⟩
  · have hsnd : kg.2 ∈ groups := by
      rw [← List.enum_map_snd groups]
      exact List.mem_map_of_mem _ hkg
    exact hsnd
  · rw [List.getD_eq_getElem _ _ hi1]
    exact List.getElem_mem hi1
  · rw [List.getD_eq_getElem _ _ hi2]
    exact List.getElem_mem hi2

/-- C10: the `PairedDataset` invariant — every pair `(sid, p1, p2)` has
`sid` a key of the grouping and `p1`, `p2` members of that speaker's
record list — holds after `__init__` (which installs a `random_pairing`
result) and after `split`, for both the retained dataset (first `size`
speaker groups) and the returned residual dataset (remaining groups),
each of which is re-paired. -/
theorem c10_pairs_stay_within_speaker (perm : ℕ → ℕ → ℕ → List ℕ)
    (hperm : ∀ s k n, (perm s k n).Perm (List.range n)) (seed seed2 : ℕ)
    (groups : List (ℕ × List ℕ)) (size : ℕ) :
    pairInvariant (mkPDS perm seed groups) ∧
    pairInvariant (splitPDS perm seed2 (mkPDS perm seed groups) size).1 ∧
    pairInvariant (splitPDS perm seed2 (mkPDS perm seed groups) size).2 :=
  ⟨randomPairing_invariant perm hperm seed groups,
   randomPairing_invariant perm hperm seed2 (groups.take size),
   randomPairing_invariant perm hperm seed2 (groups.drop size)⟩

/-- Witness for C10 on the grouping `[1 ↦ [4, 5], 2 ↦ [6]]` split at
size 1, with the identity permutation supplier. -/
theorem c10_pairs_stay_within_speaker_witness :
    pairInvariant (mkPDS (fun _ _ n => List.range n) 0 [(1, [4, 5]), (2, [6])]) ∧
    pairInvariant (splitPDS (fun _ _ n => List.range n) 3
      (mkPDS (fun _ _ n => List.range n) 0 [(1, [4, 5]), (2, [6])]) 1).1 ∧
    pairInvariant (splitPDS (fun _ _ n => List.range n) 3
      (mkPDS (fun _ _ n => List.range n) 0 [(1, [4, 5]), (2, [6])]) 1).2 :=
  c10_pairs_stay_within_speaker (fun _ _ n => List.range n)
    (fun _ _ _ => List.Perm.refl _) 0 3 [(1, [4, 5]), (2, [6])] 1

/-! ## Silence lemmas: the pipeline on all-zero input -/

lemma getD_replicate_zero (n i : ℕ) : (List.replicate n (0 : ℚ)).getD i 0 = 0 := by
  rcases lt_or_ge i n with h | h
  · rw [List.getD_eq_getElem _ _ (by rw [List.length_replicate]; exact h)]
    simp
  · exact List.getD_eq_default _ _ (by rw [List.length_replicate]; exact h)

lemma scanl_add_zero_replicate : ∀ n : ℕ,
    (List.replicate n (0 : ℚ)).scanl (· + ·) 0 = List.replicate (n + 1) 0
  | 0 => rfl
  | n + 1 => by
    rw [List.replicate_succ, List.scanl_cons, add_zero, scanl_add_zero_replicate n,
      List.singleton_append, ← List.replicate_succ]

lemma cumsum0_replicate (n : ℕ) :
    cumsum0 (List.replicate n 0) = List.replicate (n + 1) 0 := by
  rw [cumsum0, List.map_replicate, mul_zero, scanl_add_zero_replicate]

lemma corrCirc_replicate_zero (n tau : ℕ) : corrCirc (List.replicate n 0) tau = 0 := by
  rw [corrCirc]
  refine Finset.sum_eq_zero (fun j _ => ?_)
  rw [getD_replicate_zero]
  ring

lemma diffOf_replicate_zero (c : Yingram) :
    diffOf c (List.replicate c.windows 0) = List.replicate c.lmax 0 := by
  rw [diffOf, cumsum0_replicate, List.drop_replicate, List.take_replicate,
    List.reverse_replicate, List.eq_replicate_iff]
  refine ⟨by rw [List.length_map, List.length_range], ?_⟩
  intro b hb
  rw [List.mem_map] at hb
  obtain ⟨tau, _, rfl⟩ := hb
  rw [getD_replicate_zero, getD_replicate_zero, getD_replicate_zero,
    corrCirc_replicate_zero]
  ring

lemma framesOf_replicate_zero (c : Yingram) (T : ℕ) :
    ∀ fr ∈ framesOf c (List.replicate T 0), fr = List.replicate c.windows 0 := by
  intro fr hfr
  rw [framesOf, unfold, List.mem_map] at hfr
  obtain ⟨i, hi, rfl⟩ := hfr
  rw [List.mem_range, padRight, List.length_append, List.length_replicate,
    List.length_replicate] at hi
  have his : i * c.strides ≤ T := by
    calc i * c.strides ≤ (T + c.windows - c.windows) / c.strides * c.strides :=
          Nat.mul_le_mul_right _ (by omega)
      _ ≤ T + c.windows - c.windows := Nat.div_mul_le_self _ _
      _ = T := by omega
  rw [padRight, ← List.replicate_add, List.drop_replicate, List.take_replicate]
  congr 1
  omega

lemma zipWith_mul_zero_left : ∀ (k : ℕ) (ys : List ℚ),
    List.zipWith (fun x t => x * t) (List.replicate k 0) ys =
      List.replicate (min k ys.length) 0
  | 0, _ => by simp
  | _ + 1, [] => by simp
  | k + 1, y :: ys => by
    rw [List.replicate_succ, List.zipWith_cons_cons, zero_mul,
      zipWith_mul_zero_left k ys, List.length_cons, ← List.replicate_succ,
      Nat.succ_min_succ]

lemma cmndOf_replicate_zero (n : ℕ) :
    cmndOf (List.replicate n 0) = 1 :: List.replicate (n - 1) 0 := by
  rw [cmndOf, List.drop_replicate, scanl_add_zero_replicate, List.drop_replicate,
    Nat.add_sub_cancel, List.zipWith_replicate, min_self]
  have hz : (0 : ℚ) / (0 + epsY) = 0 := by
    simp
  rw [hz, zipWith_mul_zero_left]
  congr 2
  rw [List.length_map, List.length_range', List.length_replicate, min_self]

/-! ## MIDI grid lemmas -/

lemma m2l_nonneg (c : Yingram) (m : ℤ) : 0 ≤ m2l c m := by
  rw [m2l]
  positivity

lemma m2l_le_lmax (c : Yingram) (hlmax : 0 < c.lmax) {m : ℤ} (hm : mminOf c ≤ m) :
    m2l c m ≤ (c.lmax : ℝ) := by
  rcases Nat.eq_zero_or_pos c.sr with hsr | hsr
  · rw [m2l, hsr]
    rw [Nat.cast_zero, zero_div]
    exact Nat.cast_nonneg _
  · have hlm : (0 : ℝ) < (c.lmax : ℝ) := by exact_mod_cast hlmax
    have hq : (0 : ℝ) < (c.sr : ℝ) / (440 * (c.lmax : ℝ)) := by
      have h1 : (0 : ℝ) < (c.sr : ℝ) := by exact_mod_cast hsr
      positivity
    have hlog : Real.logb 2 ((c.sr : ℝ) / (440 * (c.lmax : ℝ))) ≤ ((m : ℝ) - 69) / 12 := by
      have h1 : l2m c (c.lmax : ℚ) ≤ ((mminOf c : ℤ) : ℝ) := Int.le_ceil _
      have h2 : ((mminOf c : ℤ) : ℝ) ≤ (m : ℝ) := by exact_mod_cast hm
      rw [l2m] at h1
      push_cast at h1 h2 ⊢
      linarith
    have hkey : (c.sr : ℝ) / (440 * (c.lmax : ℝ)) ≤ (2 : ℝ) ^ (((m : ℝ) - 69) / 12) := by
      calc (c.sr : ℝ) / (440 * (c.lmax : ℝ))
          = (2 : ℝ) ^ Real.logb 2 ((c.sr : ℝ) / (440 * (c.lmax : ℝ))) :=
            (Real.rpow_logb (by norm_num) (by norm_num) hq).symm
        _ ≤ (2 : ℝ) ^ (((m : ℝ) - 69) / 12) :=
            Real.rpow_le_rpow_of_exponent_le (by norm_num) hlog
    have hpow : (0 : ℝ) < (2 : ℝ) ^ (((m : ℝ) - 69) / 12) :=
      Real.rpow_pos_of_pos (by norm_num) _
    rw [m2l, div_le_iff₀ (by positivity)]
    calc (c.sr : ℝ) ≤ (2 : ℝ) ^ (((m : ℝ) - 69) / 12) * (440 * (c.lmax : ℝ)) :=
          (div_le_iff₀ (by positivity)).mp hkey
      _ = (c.lmax : ℝ) * (440 * (2 : ℝ) ^ (((m : ℝ) - 69) / 12)) := by ring

lemma grid_index_bounds (c : Yingram) (hv : configValid c) {m : ℤ}
    (hm1 : mminOf c ≤ m) :
    0 ≤ ⌊m2l c m⌋ ∧ ⌈m2l c m⌉ ≤ (c.lmax : ℤ) := by
  refine ⟨Int.floor_nonneg.mpr (m2l_nonneg c m), ?_⟩
  rw [Int.ceil_le]
  push_cast
  exact m2l_le_lmax c (lt_trans hv.2.2.1 hv.2.2.2.1) hm1

lemma mem_gridOf {c : Yingram} {m : ℤ} (h1 : mminOf c ≤ m) (h2 : m ≤ mmaxOf c) :
    m ∈ gridOf c := by
  rw [gridOf, List.mem_map]
  refine ⟨(m - mminOf c).toNat, ?_, ?_⟩
  · rw [List.mem_range]
    omega
  · omega

/-! ## Concrete grid computations for the test configurations -/

lemma l2m_cfg440b_lmax : l2m cfg440b ((cfg440b.lmax : ℕ) : ℚ) = 57 := by
  rw [l2m]
  rw [show ((cfg440b.sr : ℕ) : ℝ) / (440 * (((cfg440b.lmax : ℕ) : ℚ) : ℝ)) = 2⁻¹ by
    norm_num [cfg440b, mkYingram]]
  rw [Real.logb_inv, Real.logb_self_eq_one (by norm_num)]
  ring

lemma mmin_cfg440b : mminOf cfg440b = 57 := by
  rw [mminOf, l2m_cfg440b_lmax, show (57 : ℝ) = ((57 : ℤ) : ℝ) by norm_num,
    Int.ceil_intCast]

lemma l2m_cfg440b_lmin : l2m cfg440b ((cfg440b.lmin : ℕ) : ℚ) = 69 := by
  rw [l2m]
  rw [show ((cfg440b.sr : ℕ) : ℝ) / (440 * (((cfg440b.lmin : ℕ) : ℚ) : ℝ)) = 1 by
    norm_num [cfg440b, mkYingram]]
  rw [Real.logb_one]
  ring

lemma mmax_cfg440b : mmaxOf cfg440b = 69 := by
  rw [mmaxOf, intTrunc, l2m_cfg440b_lmin, if_pos (by norm_num),
    show (69 : ℝ) = ((69 : ℤ) : ℝ) by norm_num, Int.floor_intCast]

lemma m2l_cfg440b_57 : m2l cfg440b 57 = 2 := by
  rw [m2l, show (((57 : ℤ) : ℝ) - 69) / 12 = -1 by norm_num, Real.rpow_neg_one]
  norm_num [cfg440b, mkYingram]

lemma mmin_cfg33_le : mminOf cfg33 ≤ 57 := by
  rw [mminOf, Int.ceil_le, l2m]
  have h1 : (1 : ℝ) ≤ Real.logb 2 33 := by
    rw [Real.le_logb_iff_rpow_le (by norm_num) (by norm_num), Real.rpow_one]
    norm_num
  rw [show ((cfg33.sr : ℕ) : ℝ) / (440 * (((cfg33.lmax : ℕ) : ℚ) : ℝ)) = 33⁻¹ by
    norm_num [cfg33, mkYingram]]
  rw [Real.logb_inv]
  push_cast
  linarith

lemma l2m_cfg33_lmin : l2m cfg33 ((cfg33.lmin : ℕ) : ℚ) = 69 := by
  rw [l2m]
  rw [show ((cfg33.sr : ℕ) : ℝ) / (440 * (((cfg33.lmin : ℕ) : ℚ) : ℝ)) = 1 by
    norm_num [cfg33, mkYingram]]
  rw [Real.logb_one]
  ring

lemma mmax_cfg33 : mmaxOf cfg33 = 69 := by
  rw [mmaxOf, intTrunc, l2m_cfg33_lmin, if_pos (by norm_num),
    show (69 : ℝ) = ((69 : ℤ) : ℝ) by norm_num, Int.floor_intCast]

lemma m2l_cfg33_69 : m2l cfg33 69 = 1 := by
  rw [m2l, show (((69 : ℤ) : ℝ) - 69) / 12 = 0 by norm_num, Real.rpow_zero]
  norm_num [cfg33, mkYingram]

lemma m2l_cfg33_57 : m2l cfg33 57 = 2 := by
  rw [m2l, show (((57 : ℤ) : ℝ) - 69) / 12 = -1 by norm_num, Real.rpow_neg_one]
  norm_num [cfg33, mkYingram]

lemma logb2_3_gt : 19 / 12 < Real.logb 2 3 := by
  rw [Real.lt_logb_iff_rpow_lt (by norm_num) (by norm_num)]
  by_contra hle
  push_neg at hle
  have h12 : (3 : ℝ) ^ (12 : ℝ) ≤ ((2 : ℝ) ^ ((19 : ℝ) / 12)) ^ (12 : ℝ) :=
    Real.rpow_le_rpow (by norm_num) hle (by norm_num)
  rw [← Real.rpow_mul (by norm_num)] at h12
  rw [show (19 : ℝ) / 12 * 12 = ((19 : ℕ) : ℝ) by norm_num] at h12
  rw [show (12 : ℝ) = ((12 : ℕ) : ℝ) by norm_num] at h12
  rw [Real.rpow_natCast, Real.rpow_natCast] at h12
  norm_num at h12

lemma logb2_3_lt : Real.logb 2 3 < 20 / 12 := by
  rw [Real.logb_lt_iff_lt_rpow (by norm_num) (by norm_num)]
  by_contra hle
  push_neg at hle
  have h12 : ((2 : ℝ) ^ ((20 : ℝ) / 12)) ^ (12 : ℝ) ≤ (3 : ℝ) ^ (12 : ℝ) :=
    Real.rpow_le_rpow (by positivity) hle (by norm_num)
  rw [← Real.rpow_mul (by norm_num)] at h12
  rw [show (20 : ℝ) / 12 * 12 = ((20 : ℕ) : ℝ) by norm_num] at h12
  rw [show (12 : ℝ) = ((12 : ℕ) : ℝ) by norm_num] at h12
  rw [Real.rpow_natCast, Real.rpow_natCast] at h12
  norm_num at h12

lemma l2m_cfg7_eq : l2m cfg7 ((cfg7.lmax : ℕ) : ℚ) = 69 - 12 * Real.logb 2 3 := by
  rw [l2m]
  rw [show ((cfg7.sr : ℕ) : ℝ) / (440 * (((cfg7.lmax : ℕ) : ℚ) : ℝ)) = 3⁻¹ by
    norm_num [cfg7, mkYingram]]
  rw [Real.logb_inv]
  ring

lemma mmin_cfg7 : mminOf cfg7 = 50 := by
  rw [mminOf, l2m_cfg7_eq, Int.ceil_eq_iff]
  constructor
  · push_cast
    have := logb2_3_lt
    linarith
  · push_cast
    have := logb2_3_gt
    linarith

lemma mmax_cfg7 : mmaxOf cfg7 = 49 := by
  have heq : l2m cfg7 ((cfg7.lmin : ℕ) : ℚ) = 69 - 12 * Real.logb 2 3 := by
    rw [l2m]
    rw [show ((cfg7.sr : ℕ) : ℝ) / (440 * (((cfg7.lmin : ℕ) : ℚ) : ℝ)) = 3⁻¹ by
      norm_num [cfg7, mkYingram]]
    rw [Real.logb_inv]
    ring
  have h1 := logb2_3_gt
  have h2 := logb2_3_lt
  rw [mmaxOf, intTrunc, heq, if_pos (by linarith), Int.floor_eq_iff]
  constructor
  · push_cast
    linarith
  · push_cast
    linarith

/-! ## Interpolation lemmas -/

lemma tIndex_ok (xs : List ℚ) (i : ℤ) (h0 : 0 ≤ i) (hl : i < (xs.length : ℤ)) :
    tIndex xs i = .ok (xs.getD i.toNat 0) := by
  rw [tIndex, if_pos ⟨h0, hl⟩]

lemma yinAt_int_nan (cmnd : List ℚ) (L : ℝ) (hint : ⌈L⌉ = ⌊L⌋)
    (h0 : 0 ≤ ⌊L⌋) (hl : ⌊L⌋ < (cmnd.length : ℤ)) :
    yinAt cmnd L = .error .nan := by
  rw [yinAt, tIndex_ok cmnd ⌈L⌉ (by omega) (by omega), tIndex_ok cmnd ⌊L⌋ h0 hl]
  simp [hint]

lemma tIndex_oob (xs : List ℚ) (i : ℤ) (h : (xs.length : ℤ) ≤ i) :
    tIndex xs i = .error .oob := by
  rw [tIndex, if_neg (by omega), if_neg (by omega)]

lemma yinAt_ok (cmnd : List ℚ) (L : ℝ) (hne : ⌈L⌉ ≠ ⌊L⌋)
    (h0 : 0 ≤ ⌊L⌋) (hl : ⌈L⌉ < (cmnd.length : ℤ)) :
    yinAt cmnd L = .ok
      (((cmnd.getD ⌈L⌉.toNat 0 : ℚ) - (cmnd.getD ⌊L⌋.toNat 0 : ℚ)) * (L - (⌊L⌋ : ℝ))
        / ((⌈L⌉ : ℝ) - (⌊L⌋ : ℝ)) + (cmnd.getD ⌊L⌋.toNat 0 : ℚ)) := by
  have hfc := Int.floor_le_ceil L
  rw [yinAt, tIndex_ok cmnd ⌈L⌉ (by omega) hl, tIndex_ok cmnd ⌊L⌋ h0 (by omega)]
  simp [hne]

lemma m2l_cfg33_68 : m2l cfg33 68 = (2 : ℝ) ^ ((1 : ℝ) / 12) := by
  have ha : (0 : ℝ) < (2 : ℝ) ^ ((1 : ℝ) / 12) := Real.rpow_pos_of_pos (by norm_num) _
  rw [m2l, show (((68 : ℤ) : ℝ) - 69) / 12 = -((1 : ℝ) / 12) by norm_num,
    Real.rpow_neg (by norm_num)]
  rw [show ((cfg33.sr : ℕ) : ℝ) = 440 by norm_num [cfg33, mkYingram]]
  field_simp

lemma m2l_cfg33_68_bounds : 1 < m2l cfg33 68 ∧ m2l cfg33 68 < 2 := by
  rw [m2l_cfg33_68]
  constructor
  · exact (Real.one_lt_rpow_iff_of_pos (by norm_num)).mpr
      (Or.inl ⟨by norm_num, by norm_num⟩)
  · calc (2 : ℝ) ^ ((1 : ℝ) / 12) < (2 : ℝ) ^ (1 : ℝ) :=
        Real.rpow_lt_rpow_of_exponent_lt (by norm_num) (by norm_num)
      _ = 2 := Real.rpow_one 2

lemma m2l_cfg33_68_floor : ⌊m2l cfg33 68⌋ = 1 := by
  rw [Int.floor_eq_iff]
  obtain ⟨h1, h2⟩ := m2l_cfg33_68_bounds
  constructor
  · push_cast
    linarith
  · push_cast
    linarith

lemma m2l_cfg33_68_ceil : ⌈m2l cfg33 68⌉ = 2 := by
  rw [Int.ceil_eq_iff]
  obtain ⟨h1, h2⟩ := m2l_cfg33_68_bounds
  constructor
  · push_cast
    linarith
  · push_cast
    linarith

/-! ## Whole-call lemmas -/

lemma mem_gridOf_bounds {c : Yingram} {m : ℤ} (h : m ∈ gridOf c) :
    mminOf c ≤ m ∧ m ≤ mmaxOf c := by
  rw [gridOf, List.mem_map] at h
  obtain ⟨i, hi, rfl⟩ := h
  rw [List.mem_range] at hi
  omega

lemma m2l_antitone (c : Yingram) {m m' : ℤ} (h : m ≤ m') : m2l c m' ≤ m2l c m := by
  rw [m2l, m2l]
  have hpow : (2 : ℝ) ^ (((m : ℝ) - 69) / 12) ≤ (2 : ℝ) ^ (((m' : ℝ) - 69) / 12) := by
    refine Real.rpow_le_rpow_of_exponent_le (by norm_num) ?_
    have hc : (m : ℝ) ≤ (m' : ℝ) := by exact_mod_cast h
    linarith
  have h1 : (0 : ℝ) < 440 * (2 : ℝ) ^ (((m : ℝ) - 69) / 12) :=
    by positivity
  have h2 : (0 : ℝ) < 440 * (2 : ℝ) ^ (((m' : ℝ) - 69) / 12) :=
    by positivity
  gcongr

lemma diffBroadcastOk_of_even (c : Yingram) (hv : configValid c)
    (heven : Even c.windows) : diffBroadcastOk c := by
  obtain ⟨r, hr⟩ := heven
  rw [diffBroadcastOk, irfftLen, hr]
  have := hv.2.2.2.2
  omega

lemma forwardChecked_ok (c : Yingram) (audio : List ℚ) (hbc : diffBroadcastOk c)
    (hgrid : gridIdxOk c) :
    forwardChecked c audio = .ok (forwardRows c audio) := by
  rw [forwardChecked, if_pos hbc, if_pos hgrid]

lemma forwardCheckedB_ok (c : Yingram) (batch : List (List ℚ))
    (hbc : diffBroadcastOk c) (hgrid : gridIdxOk c) :
    forwardCheckedB c batch = .ok (batch.map (forwardRows c)) := by
  rw [forwardCheckedB, if_pos hbc, if_pos hgrid]

lemma mmin_cfg33_ge : (9 : ℤ) ≤ mminOf cfg33 := by
  rw [mminOf]
  have hlt : Real.logb 2 33 < 61 / 12 := by
    rw [Real.logb_lt_iff_lt_rpow (by norm_num) (by norm_num)]
    by_contra hle
    push_neg at hle
    have h12 : ((2 : ℝ) ^ ((61 : ℝ) / 12)) ^ (12 : ℝ) ≤ (33 : ℝ) ^ (12 : ℝ) :=
      Real.rpow_le_rpow (by positivity) hle (by norm_num)
    rw [← Real.rpow_mul (by norm_num)] at h12
    rw [show (61 : ℝ) / 12 * 12 = ((61 : ℕ) : ℝ) by norm_num] at h12
    rw [show (12 : ℝ) = ((12 : ℕ) : ℝ) by norm_num] at h12
    rw [Real.rpow_natCast, Real.rpow_natCast] at h12
    norm_num at h12
  have h8 : ((8 : ℤ) : ℝ) < l2m cfg33 ((cfg33.lmax : ℕ) : ℚ) := by
    rw [l2m]
    rw [show ((cfg33.sr : ℕ) : ℝ) / (440 * (((cfg33.lmax : ℕ) : ℚ) : ℝ)) = 33⁻¹ by
      norm_num [cfg33, mkYingram]]
    rw [Real.logb_inv]
    push_cast
    linarith
  have := Int.lt_ceil.mpr h8
  omega

lemma m2l_cfg33_9 : m2l cfg33 9 = 32 := by
  rw [m2l, show (((9 : ℤ) : ℝ) - 69) / 12 = -(((5 : ℕ) : ℝ)) by norm_num,
    Real.rpow_neg (by norm_num), Real.rpow_natCast]
  rw [show ((cfg33.sr : ℕ) : ℝ) = 440 by norm_num [cfg33, mkYingram]]
  norm_num

lemma gridIdxOk_cfg33 : gridIdxOk cfg33 := by
  intro m hm
  obtain ⟨hm1, _⟩ := mem_gridOf_bounds hm
  have h9 : (9 : ℤ) ≤ m := le_trans mmin_cfg33_ge hm1
  have hle : m2l cfg33 m ≤ 32 := by
    have h := m2l_antitone cfg33 h9
    rwa [m2l_cfg33_9] at h
  have hfl0 : 0 ≤ ⌊m2l cfg33 m⌋ := Int.floor_nonneg.mpr (m2l_nonneg cfg33 m)
  have hcl : ⌈m2l cfg33 m⌉ ≤ 32 := Int.ceil_le.mpr (by exact_mod_cast hle)
  have hfc : ⌊m2l cfg33 m⌋ ≤ ⌈m2l cfg33 m⌉ := Int.floor_le_ceil _
  have hlm : ((cfg33.lmax : ℕ) : ℤ) = 33 := rfl
  exact ⟨⟨by omega, by omega⟩, ⟨by omega, by omega⟩⟩

lemma cmndOf_length (d : List ℚ) (h : 1 ≤ d.length) : (cmndOf d).length = d.length := by
  simp only [cmndOf, List.length_cons, List.length_zipWith, List.length_map,
    List.length_range', List.length_drop, List.length_scanl]
  omega

lemma forwardChecked_broadcast_err (c : Yingram) (audio : List ℚ)
    (h : ¬ diffBroadcastOk c) :
    diffChecked c audio = .error .runtimeShape ∧
    forwardChecked c audio = .error .runtimeShape :=
  ⟨by rw [diffChecked, if_neg h], by rw [forwardChecked, if_neg h]⟩

lemma oddWindow_call_aborts :
    configValid (mkYingram 1 5 1 5 16000) ∧
    forwardChecked (mkYingram 1 5 1 5 16000) (List.replicate 5 0) =
      .error .runtimeShape :=
  ⟨by decide,
    (forwardChecked_broadcast_err (mkYingram 1 5 1 5 16000) (List.replicate 5 0)
      (by decide)).2⟩

lemma not_gridIdxOk_cfg440b : ¬ gridIdxOk cfg440b := by
  intro h
  have h57 := h 57 (mem_gridOf (by rw [mmin_cfg440b]) (by rw [mmax_cfg440b]; norm_num))
  have hc : ⌈m2l cfg440b 57⌉ = 2 := by
    rw [m2l_cfg440b_57, show (2 : ℝ) = ((2 : ℤ) : ℝ) by norm_num, Int.ceil_intCast]
  have hlt := h57.1.2
  rw [hc] at hlt
  have hlm : ((cfg440b.lmax : ℕ) : ℤ) = 2 := rfl
  omega

lemma cfg440b_call_aborts :
    forwardChecked cfg440b (List.replicate 2 0) = .error .indexError := by
  rw [forwardChecked, if_pos (by decide), if_neg not_gridIdxOk_cfg440b]

/-! ## Claim theorems: grid, interpolation and error handling -/

/-- C2: the claim says that when a MIDI grid point's fractional lag is
exactly an integer `L0`, `Yingram.forward` returns `cmnd[L0]` with no
division by zero.  The code instead divides by `lceil - lfloor = 0`:
the IEEE quotient `0/0` is NaN.  With the valid configuration
`strides=34, windows=34, lmin=1, lmax=33, sr=440`, MIDI index 69 is in
the grid and its lag is exactly 1; on the all-zero waveform of length
34 every frame's output at that grid point is NaN, while the value
`cmnd[1] = 0` demanded by the claim exists and is finite. -/
theorem c2_integer_lag_division_by_zero :
    configValid cfg33 ∧
    (69 : ℤ) ∈ gridOf cfg33 ∧
    m2l cfg33 69 = 1 ∧
    ∀ fr ∈ framesOf cfg33 (List.replicate 34 0),
      yinAt (cmndOf (diffOf cfg33 fr)) (m2l cfg33 69) = .error .nan ∧
      tIndex (cmndOf (diffOf cfg33 fr)) 1 = .ok 0 := by
  refine ⟨by decide,
    mem_gridOf (le_trans mmin_cfg33_le (by norm_num)) (by rw [mmax_cfg33]),
    m2l_cfg33_69, ?_⟩
  intro fr hfr
  have hfr' := framesOf_replicate_zero cfg33 34 fr hfr
  have hcm : cmndOf (diffOf cfg33 fr) = 1 :: List.replicate 32 0 := by
    rw [hfr', diffOf_replicate_zero, cmndOf_replicate_zero]
    rfl
  rw [hcm, m2l_cfg33_69]
  constructor
  · apply yinAt_int_nan
    · rw [show (1 : ℝ) = ((1 : ℤ) : ℝ) by norm_num, Int.ceil_intCast, Int.floor_intCast]
    · rw [show (1 : ℝ) = ((1 : ℤ) : ℝ) by norm_num, Int.floor_intCast]
      norm_num
    · rw [show (1 : ℝ) = ((1 : ℤ) : ℝ) by norm_num, Int.floor_intCast]
      rw [List.length_cons, List.length_replicate]
      norm_num
  · rw [tIndex_ok _ _ (by norm_num) (by rw [List.length_cons, List.length_replicate]; norm_num)]
    rw [show ((1 : ℤ)).toNat = 1 from rfl, List.getD_cons_succ, getD_replicate_zero]

/-- C3 counterexample: the claimed bound `ceil(L) < lagMax` fails.  On
the valid configuration `strides=1, windows=2, lmin=1, lmax=2, sr=440`,
MIDI index 57 is in the grid, its fractional lag is exactly 2, so
`lceil = 2 = lagMax`, and the read of the CMND vector (length 2) is out
of bounds: the interpolation raises an index error. -/
theorem c3_interpolation_bounds_counterexample :
    configValid cfg440b ∧
    (57 : ℤ) ∈ gridOf cfg440b ∧
    m2l cfg440b 57 = 2 ∧
    ¬ (⌈m2l cfg440b 57⌉ < (cfg440b.lmax : ℤ)) ∧
    framesOf cfg440b [] = [[0, 0]] ∧
    yinAt (cmndOf (diffOf cfg440b [0, 0])) (m2l cfg440b 57) = .error .oob := by
  have hceil : ⌈(2 : ℝ)⌉ = 2 := by
    rw [show (2 : ℝ) = ((2 : ℤ) : ℝ) by norm_num, Int.ceil_intCast]
  have hfloor : ⌊(2 : ℝ)⌋ = 2 := by
    rw [show (2 : ℝ) = ((2 : ℤ) : ℝ) by norm_num, Int.floor_intCast]
  have hcm : cmndOf (diffOf cfg440b [0, 0]) = [1, 0] := by
    show cmndOf (diffOf cfg440b (List.replicate cfg440b.windows 0)) = [1, 0]
    rw [diffOf_replicate_zero, cmndOf_replicate_zero]
    rfl
  refine ⟨by decide,
    mem_gridOf (by rw [mmin_cfg440b]) (by rw [mmax_cfg440b]; norm_num),
    m2l_cfg440b_57, ?_, ?_, ?_⟩
  · rw [m2l_cfg440b_57, hceil]
    decide
  · rw [framesOf, unfold, padRight]
    rfl
  · rw [hcm, m2l_cfg440b_57, yinAt, hceil, hfloor,
      tIndex_oob _ _ (by rw [List.length_cons, List.length_cons, List.length_nil]; norm_num)]

/-- C3 amended: for every configuration satisfying the invariant
`0 < lagMin < lagMax ≤ windowSize` and every MIDI grid point, the
interpolation indices satisfy `0 ≤ floor(L) ≤ ceil(L) ≤ lagMax` — the
closed upper bound `lagMax` itself can be attained (see the
counterexample), so the indices lie in `[0, lagMax]` rather than in
`[0, lagMax)` as claimed. -/
theorem c3_interpolation_index_bounds (c : Yingram) (hv : configValid c) (m : ℤ)
    (hm1 : mminOf c ≤ m) (_hm2 : m ≤ mmaxOf c) :
    0 ≤ ⌊m2l c m⌋ ∧ ⌊m2l c m⌋ ≤ ⌈m2l c m⌉ ∧ ⌈m2l c m⌉ ≤ (c.lmax : ℤ) := by
  obtain ⟨h1, h2⟩ := grid_index_bounds c hv hm1
  exact ⟨h1, Int.floor_le_ceil _, h2⟩

/-- Witness for the amended C3 at the configuration `cfg440b` and MIDI
index 57. -/
theorem c3_interpolation_index_bounds_witness :
    0 ≤ ⌊m2l cfg440b 57⌋ ∧ ⌊m2l cfg440b 57⌋ ≤ ⌈m2l cfg440b 57⌉ ∧
      ⌈m2l cfg440b 57⌉ ≤ (cfg440b.lmax : ℤ) :=
  c3_interpolation_index_bounds cfg440b (by decide) 57 (by rw [mmin_cfg440b])
    (by rw [mmax_cfg440b]; norm_num)

/-- C5 amended: for a batch of B waveforms of a common length T and any
valid configuration, whenever `Yingram.forward` returns at all — i.e.
the difference stage's broadcast is well-formed and every
interpolation index is in range; otherwise the call aborts with a
`RuntimeError` or an `IndexError` and returns nothing — the output has
shape `B × F × (mMax - mMin + 1)` where `F = floor(T / strides) + 1`
(not `ceil(T / strides)` as claimed, see the counterexample), and the
last dimension depends only on the configuration. -/
theorem c5_shape_law (c : Yingram) (_hv : configValid c) (batch : List (List ℚ))
    (T : ℕ) (hT : ∀ a ∈ batch, a.length = T)
    (outB : List (List (List (Option ℝ))))
    (hok : forwardCheckedB c batch = .ok outB) :
    outB.length = batch.length ∧
    ∀ out ∈ outB,
      out.length = T / c.strides + 1 ∧
      ∀ row ∈ out, row.length = (mmaxOf c + 1 - mminOf c).toNat := by
  rw [forwardCheckedB] at hok
  by_cases h1 : diffBroadcastOk c
  rotate_left
  · rw [if_neg h1] at hok
    exact absurd hok (by simp)
  rw [if_pos h1] at hok
  by_cases h2 : gridIdxOk c
  rotate_left
  · rw [if_neg h2] at hok
    exact absurd hok (by simp)
  · rw [if_pos h2] at hok
    obtain rfl : batch.map (forwardRows c) = outB := by
      simpa using hok
    constructor
    · rw [List.length_map]
    · intro out hout
      rw [List.mem_map] at hout
      obtain ⟨a, ha, rfl⟩ := hout
      constructor
      · rw [forwardRows, List.length_map, framesOf, unfold, List.length_map,
          List.length_range, padRight, List.length_append, List.length_replicate,
          hT a ha]
        congr 2
        omega
      · intro row hrow
        rw [forwardRows, List.mem_map] at hrow
        obtain ⟨fr, _, rfl⟩ := hrow
        rw [List.length_map, gridOf, List.length_map, List.length_range]

/-- Witness for the amended C5: at `cfg33` (whose grid indices are all
in range, so the call returns) one empty waveform gives a
`1 × 1 × (mMax - mMin + 1)` output. -/
theorem c5_shape_law_witness :
    ∃ outB, forwardCheckedB cfg33 [[]] = .ok outB ∧
      (outB.length = ([[]] : List (List ℚ)).length ∧
       ∀ out ∈ outB,
         out.length = 0 / cfg33.strides + 1 ∧
         ∀ row ∈ out, row.length = (mmaxOf cfg33 + 1 - mminOf cfg33).toNat) := by
  have hok : forwardCheckedB cfg33 [[]] = .ok ([[]].map (forwardRows cfg33)) :=
    forwardCheckedB_ok cfg33 [[]] (by decide) gridIdxOk_cfg33
  exact ⟨_, hok, c5_shape_law cfg33 (by decide) [[]] 0 (by simp) _ hok⟩

/-- C6 counterexample: on the valid configuration `cfg33` and the
all-zero waveform of length `windowSize = 34`, the MIDI grid point 57
(whose fractional lag is exactly 2) receives the NaN `0/0` in every
frame: the epsilon guard does not prevent the interpolation division
by zero, so the output is not defined at every grid point. -/
theorem c6_silence_nan_counterexample :
    configValid cfg33 ∧
    cfg33.windows ≤ 34 ∧
    (57 : ℤ) ∈ gridOf cfg33 ∧
    m2l cfg33 57 = 2 ∧
    ∀ fr ∈ framesOf cfg33 (List.replicate 34 0),
      yinAt (cmndOf (diffOf cfg33 fr)) (m2l cfg33 57) = .error .nan := by
  refine ⟨by decide, by decide,
    mem_gridOf (le_trans mmin_cfg33_le (by norm_num)) (by rw [mmax_cfg33]; norm_num),
    m2l_cfg33_57, ?_⟩
  intro fr hfr
  have hfr' := framesOf_replicate_zero cfg33 34 fr hfr
  have hcm : cmndOf (diffOf cfg33 fr) = 1 :: List.replicate 32 0 := by
    rw [hfr', diffOf_replicate_zero, cmndOf_replicate_zero]
    rfl
  rw [hcm, m2l_cfg33_57]
  apply yinAt_int_nan
  · rw [show (2 : ℝ) = ((2 : ℤ) : ℝ) by norm_num, Int.ceil_intCast, Int.floor_intCast]
  · rw [show (2 : ℝ) = ((2 : ℤ) : ℝ) by norm_num, Int.floor_intCast]
    norm_num
  · rw [show (2 : ℝ) = ((2 : ℤ) : ℝ) by norm_num, Int.floor_intCast,
      List.length_cons, List.length_replicate]
    norm_num

/-- C6 amended: on an all-zero waveform of length at least
`windowSize`, for an even window size (for an odd window torch's
`irfft` output has length `windowSize - 1`, and with
`lagMax > windowSize - 1` the difference stage raises a broadcast
`RuntimeError`, so not even a difference function is produced) and a
configuration whose interpolation indices are all in range (otherwise
the whole call aborts with an `IndexError` and no value exists at any
grid point), the call returns; every frame's difference function is
all zeros, the CMND is exactly 1 at index 0, and the returned entry at
every MIDI grid point whose fractional lag is not an integer is a
defined real with absolute value at most 1.  (At integer-lag grid
points the returned entry is the NaN `0/0` — see the
counterexample.) -/
theorem c6_silence_behaviour (c : Yingram) (hv : configValid c)
    (heven : Even c.windows) (hgrid : gridIdxOk c) (T : ℕ)
    (_hT : c.windows ≤ T) :
    forwardChecked c (List.replicate T 0) = .ok (forwardRows c (List.replicate T 0)) ∧
    ∀ fr ∈ framesOf c (List.replicate T 0),
      diffOf c fr = List.replicate c.lmax 0 ∧
      (cmndOf (diffOf c fr)).getD 0 0 = 1 ∧
      ∀ m ∈ gridOf c, ⌊m2l c m⌋ ≠ ⌈m2l c m⌉ →
        ∃ v : ℝ, yinVal (cmndOf (diffOf c fr)) (m2l c m) = some v ∧ |v| ≤ 1 := by
  refine ⟨forwardChecked_ok c _ (diffBroadcastOk_of_even c hv heven) hgrid, ?_⟩
  intro fr hfr
  have hfr' := framesOf_replicate_zero c T fr hfr
  have hd : diffOf c fr = List.replicate c.lmax 0 := by
    rw [hfr', diffOf_replicate_zero]
  have hcm : cmndOf (diffOf c fr) = 1 :: List.replicate (c.lmax - 1) 0 := by
    rw [hd, cmndOf_replicate_zero]
  refine ⟨hd, by rw [hcm, List.getD_cons_zero], ?_⟩
  intro m hm hne
  obtain ⟨⟨_, _⟩, _, _⟩ := hgrid m hm
  have hfl0 : 0 ≤ ⌊m2l c m⌋ := Int.floor_nonneg.mpr (m2l_nonneg c m)
  have hfc := Int.floor_le_ceil (m2l c m)
  have hcf1 := Int.ceil_le_floor_add_one (m2l c m)
  have hlc : ⌈m2l c m⌉ = ⌊m2l c m⌋ + 1 := by omega
  rw [yinVal, if_neg (fun h => hne h.symm)]
  simp only [tGet]
  rw [if_pos (le_trans hfl0 hfc), if_pos hfl0]
  have htoc : (⌈m2l c m⌉).toNat = (⌊m2l c m⌋).toNat + 1 := by omega
  have hvc : (cmndOf (diffOf c fr)).getD (⌈m2l c m⌉).toNat 0 = 0 := by
    rw [hcm, htoc, List.getD_cons_succ, getD_replicate_zero]
  have hfl := Int.floor_le (m2l c m)
  have hfu := Int.lt_floor_add_one (m2l c m)
  have hone : ((⌈m2l c m⌉ : ℤ) : ℝ) - ((⌊m2l c m⌋ : ℤ) : ℝ) = 1 := by
    rw [hlc]
    push_cast
    ring
  rcases Nat.eq_zero_or_pos (⌊m2l c m⌋).toNat with h0 | h0
  · have hvf : (cmndOf (diffOf c fr)).getD (⌊m2l c m⌋).toNat 0 = 1 := by
      rw [hcm, h0, List.getD_cons_zero]
    refine ⟨_, rfl, ?_⟩
    rw [hvc, hvf, hone]
    rw [abs_le]
    push_cast
    constructor <;> nlinarith
  · obtain ⟨k, hk⟩ : ∃ k, (⌊m2l c m⌋).toNat = k + 1 := ⟨(⌊m2l c m⌋).toNat - 1, by omega⟩
    have hvf : (cmndOf (diffOf c fr)).getD (⌊m2l c m⌋).toNat 0 = 0 := by
      rw [hcm, hk, List.getD_cons_succ, getD_replicate_zero]
    refine ⟨_, rfl, ?_⟩
    rw [hvc, hvf, hone]
    push_cast
    norm_num

/-- Witness for the amended C6 at `cfg33`, the all-zero waveform of
length 34 and MIDI index 68, whose lag `2^(1/12)` is not an integer. -/
theorem c6_silence_behaviour_witness :
    forwardChecked cfg33 (List.replicate 34 0) =
      .ok (forwardRows cfg33 (List.replicate 34 0)) ∧
    ∃ v : ℝ, yinVal (cmndOf (diffOf cfg33 (List.replicate 34 0))) (m2l cfg33 68) =
      some v ∧ |v| ≤ 1 := by
  have hmem : List.replicate 34 (0 : ℚ) ∈ framesOf cfg33 (List.replicate 34 0) := by
    rw [framesOf, unfold, List.mem_map]
    refine ⟨0, ?_, ?_⟩
    · rw [List.mem_range]
      exact Nat.succ_pos _
    · rw [padRight, ← List.replicate_add, Nat.zero_mul, List.drop_replicate,
        List.take_replicate]
      congr 1
  have h := c6_silence_behaviour cfg33 (by decide) (by decide) gridIdxOk_cfg33 34
    (by decide)
  refine ⟨h.1, ?_⟩
  refine h.2 (List.replicate 34 0) hmem |>.2.2 68
    (mem_gridOf (le_trans mmin_cfg33_le (by norm_num)) (by rw [mmax_cfg33]; norm_num))
    ?_
  rw [m2l_cfg33_68_floor, m2l_cfg33_68_ceil]
  decide

/-- C7 counterexample: there is no configuration validation anywhere.
The configuration `strides=4, windows=4, lmin=3, lmax=3, sr=440`
violates the invariant (`lagMin < lagMax` fails), yet construction
stores it unchanged and the first forward call succeeds, returning an
output whose MIDI grid is empty — no `ConfigError` (the repository
defines no such error) and no error at all. -/
theorem c7_no_config_error_counterexample :
    ¬ configValid cfg7 ∧
    mkYingram 4 4 3 3 440 = cfg7 ∧
    gridOf cfg7 = [] ∧
    forward cfg7 [0, 0, 0, 0] = [[], []] ∧
    forwardChecked cfg7 [0, 0, 0, 0] = .ok [[], []] := by
  have hgrid : gridOf cfg7 = [] := by
    rw [gridOf, mmin_cfg7, mmax_cfg7]
    rfl
  have hframes : framesOf cfg7 [0, 0, 0, 0] = [[0, 0, 0, 0], [0, 0, 0, 0]] := by
    rw [framesOf, unfold, padRight]
    rfl
  refine ⟨by decide, rfl, hgrid, ?_, ?_⟩
  · rw [forward, hgrid, hframes]
    rfl
  · rw [forwardChecked_ok cfg7 _ (by decide)
      (by intro m hm; rw [hgrid] at hm; exact absurd hm (List.not_mem_nil m))]
    rw [forwardRows, hgrid, hframes]
    rfl

/-- C7 amended: constructing the extractor never validates and never
fails: for every parameter tuple, also every one violating the
configuration invariant, `Yingram.__init__` stores the five fields and
succeeds; invalid configurations are not rejected with a
`ConfigError`. -/
theorem c7_construction_stores_without_validation
    (strides windows lmin lmax sr : ℕ)
    (_h : ¬ configValid (mkYingram strides windows lmin lmax sr)) :
    mkYingram strides windows lmin lmax sr =
      { strides := strides, windows := windows, lmin := lmin, lmax := lmax,
        sr := sr } := rfl

/-- Witness for the amended C7 at the invalid configuration of the
counterexample. -/
theorem c7_construction_stores_without_validation_witness :
    ¬ configValid (mkYingram 4 4 3 3 440) ∧
    mkYingram 4 4 3 3 440 =
      { strides := 4, windows := 4, lmin := 3, lmax := 3, sr := 440 } :=
  ⟨by decide, c7_construction_stores_without_validation 4 4 3 3 440 (by decide)⟩

end TorchNansy
